import Mathlib

/-!
Shallow embedding of the signal-ranking analysis of
`utils/lookout_equipment_utils.py` (class `LookoutEquipmentAnalysis`):
the methods `_get_time_ranges` and `compute_histograms`, together with
the numpy / scipy primitives they call (`np.arange`, `np.min`, `np.max`,
`np.histogram` with `density=True`, `scipy.stats.wasserstein_distance`).

Modelling conventions:
* timestamps are `Nat` (standing for the datetime labels of the pandas
  index, which are totally ordered); signal values are `ℚ`, exact
  arithmetic standing in for float64;
* a single-column pandas frame is a list of (timestamp, value) rows,
  timestamps strictly increasing as the data model requires;
* a Python float that may be NaN is `Option ℚ`, `none` being NaN;
* a computation that may raise an exception is `Except Unit _` or
  `Option _`, the error case being the raise.
-/

namespace Lookout

/-- One row of the `predicted_ranges` dataframe: a closed anomaly
interval from `row['start']` to `row['end']`. -/
structure Interval where
  start : Nat
  stop : Nat
deriving DecidableEq

/-- The attributes of a `LookoutEquipmentAnalysis` object that
`_get_time_ranges` and `compute_histograms` read.  The two partition
attributes are `Option`-valued: `none` models an attribute that was
never assigned, so that reading it raises `AttributeError`. -/
structure Analysis where
  df_list : List (String × List (Nat × ℚ))
  predicted_ranges : List Interval
  evaluation_start : Nat
  evaluation_end : Nat
  ts_normal_training : Option (List Nat)
  ts_label_evaluation : Option (List Nat)

/-- Values of the single column of a signal frame
(`current_tag_df[tag]`). -/
def colValues (sig : List (Nat × ℚ)) : List ℚ := sig.map Prod.snd

/-- `df.loc[t, tag]` for one timestamp label: the first matching row. -/
def tsLookup (sig : List (Nat × ℚ)) (t : Nat) : Option ℚ :=
  (sig.find? (fun p => p.1 == t)).map Prod.snd

/-- `df.loc[index, tag]` for a list of labels: pandas returns the rows in
the order of the requested labels and raises `KeyError` when any label is
missing from the frame's index (`none` here). -/
def locList (sig : List (Nat × ℚ)) : List Nat → Option (List ℚ)
  | [] => some []
  | t :: ts =>
    match tsLookup sig t, locList sig ts with
    | some v, some vs => some (v :: vs)
    | _, _ => none

/-- `np.min` (raises `ValueError` on an empty array: `none`). -/
def np_min : List ℚ → Option ℚ
  | [] => none
  | x :: xs => some (xs.foldl min x)

/-- `np.max` (raises `ValueError` on an empty array: `none`). -/
def np_max : List ℚ → Option ℚ
  | [] => none
  | x :: xs => some (xs.foldl max x)

/-- The first `n` values `start + k * step`, in order. -/
def arangeVals (start step : ℚ) : Nat → List ℚ
  | 0 => []
  | n + 1 => arangeVals start step n ++ [start + (n : ℚ) * step]

/-- `np.arange start stop step` over exact rationals: `none` models the
`ZeroDivisionError` raised when the step is zero; otherwise
`⌈(stop - start)/step⌉` evenly spaced values starting at `start`. -/
def np_arange (start stop step : ℚ) : Option (List ℚ) :=
  if step = 0 then none
  else some (arangeVals start step (⌈(stop - start) / step⌉).toNat)

/-- Successive differences of a list (`np.diff`), giving the bin widths
of a list of bin edges. -/
def edgeDiffs : List ℚ → List ℚ
  | a :: b :: rest => (b - a) :: edgeDiffs (b :: rest)
  | _ => []

/-- Per-bin counts of `np.histogram data bins=edges`, walking the edge
list: every bin `[e i, e (i+1))` is half-open except the final one,
which is closed, and values outside the overall edge range are not
counted. -/
def histCounts (data : List ℚ) : List ℚ → List Nat
  | [lo, hi] => [data.countP fun x => decide (lo ≤ x) && decide (x ≤ hi)]
  | lo :: hi :: rest₀ :: rest =>
      (data.countP fun x => decide (lo ≤ x) && decide (x < hi)) ::
        histCounts data (hi :: rest₀ :: rest)
  | _ => []

/-- Total in-range count of a histogram, as a rational. -/
def histTotal (edges : List ℚ) (data : List ℚ) : ℚ :=
  ((histCounts data edges).map (Nat.cast : Nat → ℚ)).sum

/-- `np.histogram(..., density=True)[0]`: each count divided by
`(total in-range count) * (bin width)`.  When the total count is zero
numpy divides 0/0 and returns an all-NaN array, modelled as `none`. -/
def np_histogram_density (edges : List ℚ) (data : List ℚ) :
    Option (List ℚ) :=
  if histTotal edges data = 0 then none
  else some (((histCounts data edges).zip (edgeDiffs edges)).map
    fun p => (p.1 : ℚ) / (histTotal edges data * p.2))

/-- Absolute value on `ℚ`, written as a conditional so that concrete
instances evaluate by `simp`/`norm_num`. -/
def rabs (x : ℚ) : ℚ := if x < 0 then -x else x

/-- Ascending insertion into a sorted list, the stable building block of
the sample sort inside the distance computation. -/
def insertAsc (x : ℚ) : List ℚ → List ℚ
  | [] => [x]
  | y :: ys => if x ≤ y then x :: y :: ys else y :: insertAsc x ys

/-- Ascending sort of the pooled samples (`np.sort`). -/
def sortAsc (l : List ℚ) : List ℚ := l.foldr insertAsc []

/-- Empirical CDF of the sample list `s` at `x`:
`#(y ∈ s, y ≤ x) / #s`. -/
def cdfAt (s : List ℚ) (x : ℚ) : ℚ :=
  ((s.countP fun y => decide (y ≤ x) : Nat) : ℚ) / (s.length : ℚ)

/-- `scipy.stats.wasserstein_distance u_values v_values` with no weights:
the 1-Wasserstein distance between the *empirical distributions of the
two sample lists*, computed as scipy does by integrating `|F_u - F_v|`
between consecutive values of the pooled sorted sample. -/
def wasserstein_distance (u v : List ℚ) : ℚ :=
  ((sortAsc (u ++ v)).dropLast.zip (edgeDiffs (sortAsc (u ++ v))) |>.map
    fun p => rabs (cdfAt u p.1 - cdfAt v p.1) * p.2).sum

/-- Whether some predicted anomaly range covers timestamp `t`.  The loop
in `_get_time_ranges` only ever writes the flag 1, so after the loop a
timestamp is flagged iff some interval `[start, end]` contains it. -/
def covered (ranges : List Interval) (t : Nat) : Bool :=
  ranges.any fun r => decide (r.start ≤ t) && decide (t ≤ r.stop)

/-- `LookoutEquipmentAnalysis._get_time_ranges`: build the flag series
over the first signal's index, clip it to the evaluation period (pandas
label slices are inclusive at both ends), and split the clipped index by
flag value into (normal, anomalous).  `none` models the `IndexError`
raised on an empty `df_list`. -/
def get_time_ranges (a : Analysis) : Option (List Nat × List Nat) :=
  match a.df_list with
  | [] => none
  | (_, tag_df) :: _ =>
    let clipped := (tag_df.map Prod.fst).filter fun t =>
      decide (a.evaluation_start ≤ t) && decide (t ≤ a.evaluation_end)
    some (clipped.filter (fun t => !covered a.predicted_ranges t),
          clipped.filter (fun t => covered a.predicted_ranges t))

/-- The tail of the per-signal `try:` block, from the bin computation
(line `bin_width = ...`) on, given the values selected by the `.loc`
lookups.  `np.max` and `np.min` both raise exactly when the whole column
is empty, hence the joint match. -/
def histogram_step (num_bins : Nat) (sig : List (Nat × ℚ))
    (trainVals evalVals : List ℚ) : Except Unit (Option ℚ) :=
  match np_max (colValues sig), np_min (colValues sig) with
  | some mx, some mn =>
    match np_arange mn (mx + (mx - mn) / (num_bins : ℚ))
        ((mx - mn) / (num_bins : ℚ)) with
    | none => Except.error ()
    | some edges =>
      if edges.length < 2 then Except.error () else
      match np_histogram_density edges trainVals,
            np_histogram_density edges evalVals with
      | some u, some v => Except.ok (some (wasserstein_distance u v))
      | _, _ => Except.ok none
  | _, _ => Except.error ()

/-- The body of the per-signal `try:` block of `compute_histograms`, in
the statement order of the source: select the evaluation-partition and
normal-partition values (each attribute read raising `AttributeError`
when unset, each `.loc` raising `KeyError` on a missing label), then run
the histogram/distance tail.  `Except.error` is an exception reaching
the bare `except`; `Except.ok none` is a NaN float result (the all-NaN
density of an empty partition propagates through scipy without raising);
`Except.ok (some d)` is a real distance. -/
def signal_score_raw (num_bins : Nat)
    (ts_label ts_normal : Option (List Nat)) (sig : List (Nat × ℚ)) :
    Except Unit (Option ℚ) :=
  match ts_label with
  | none => Except.error ()
  | some lbl =>
    match locList sig lbl with
    | none => Except.error ()
    | some evalVals =>
      match ts_normal with
      | none => Except.error ()
      | some nrm =>
        match locList sig nrm with
        | none => Except.error ()
        | some trainVals => histogram_step num_bins sig trainVals evalVals

/-- The score recorded in the rank dictionary for one signal: the value
of the `try:` body, or `0.0` when the bare `except` catches. -/
def signal_score (num_bins : Nat)
    (ts_label ts_normal : Option (List Nat)) (sig : List (Nat × ℚ)) :
    Option ℚ :=
  match signal_score_raw num_bins ts_label ts_normal sig with
  | Except.error _ => some 0
  | Except.ok s => s

/-- Tag every element of a list with its position, front to back. -/
def tagIdx : Nat → List α → List (Nat × α)
  | _, [] => []
  | i, x :: xs => (i, x) :: tagIdx (i + 1) xs

/-- Python `>` on possibly-NaN floats: every comparison against NaN is
false. -/
def pyGt (x y : Option ℚ) : Bool :=
  match x, y with
  | some p, some q => decide (q < p)
  | _, _ => false

/-- The ordering realizing `sorted(..., key=score, reverse=True)` on
position-tagged entries: strictly greater score first, and when neither
score is strictly greater (equal scores, or a NaN involved) the original
position decides, which is exactly sort stability. -/
def pyKeyLe (a b : Nat × (String × Option ℚ)) : Bool :=
  pyGt a.2.2 b.2.2 || (!pyGt b.2.2 a.2.2 && decide (a.1 ≤ b.1))

/-- Stable insertion step of the descending sort. -/
def insertRank (x : Nat × (String × Option ℚ)) :
    List (Nat × (String × Option ℚ)) → List (Nat × (String × Option ℚ))
  | [] => [x]
  | y :: ys => if pyKeyLe x y then x :: y :: ys else y :: insertRank x ys

/-- `sorted(rank.items(), key=lambda rank: rank[1], reverse=True)`:
Python's sort is stable, and a stable descending sort coincides with
sorting the position-tagged entries by `pyKeyLe`. -/
def sorted_by_score_desc (l : List (String × Option ℚ)) :
    List (String × Option ℚ) :=
  ((tagIdx 0 l).foldr insertRank []).map Prod.snd

/-- The state `compute_histograms` leaves behind: the partition
attributes after the call, `num_bins`, and the rank dictionary in its
sorted insertion order. -/
structure RankState where
  ts_normal_training : Option (List Nat)
  ts_label_evaluation : Option (List Nat)
  num_bins : Nat
  rank : List (String × Option ℚ)
deriving DecidableEq

/-- `LookoutEquipmentAnalysis.compute_histograms`.  When either argument
is `None`, both partition attributes are recomputed by
`_get_time_ranges` (whose exception escapes the method: `none`);
otherwise the supplied arguments are discarded and the stored attributes
are used as they are.  Each signal's score is computed by the guarded
per-signal body, and the rank dictionary is rebuilt sorted by decreasing
score. -/
def compute_histograms (a : Analysis)
    (index_normal index_anomaly : Option (List Nat)) (num_bins : Nat) :
    Option RankState :=
  let fields? : Option (Option (List Nat) × Option (List Nat)) :=
    if index_normal.isNone || index_anomaly.isNone then
      (get_time_ranges a).map fun p => (some p.1, some p.2)
    else some (a.ts_normal_training, a.ts_label_evaluation)
  fields?.map fun fields =>
    { ts_normal_training := fields.1
      ts_label_evaluation := fields.2
      num_bins := num_bins
      rank := sorted_by_score_desc (a.df_list.map fun p =>
        (p.1, signal_score num_bins fields.2 fields.1 p.2)) }

/-- The distance the specification describes for a signal's score: the
1-D earth-mover distance between the two density histograms read as
distributions over the bin positions `0, 1, 2, ...` with unit spacing,
each histogram's values being the weights of those positions (each
weight list normalized by its total mass). -/
def spec_bin_emd (u v : List ℚ) : ℚ :=
  ((List.range (u.length - 1)).map fun k =>
    rabs ((u.take (k + 1)).sum / u.sum - (v.take (k + 1)).sum / v.sum)).sum

/-- The bin edges actually built by `compute_histograms` for a signal
with minimum `mn`, maximum `mx` and a positive bin count: exactly the
`n + 1` values `mn + k * bin_width`, whose last entry is `mx` itself. -/
theorem np_arange_eval (mn mx : ℚ) (n : Nat) (hn : 0 < n) (hlt : mn < mx) :
    np_arange mn (mx + (mx - mn) / (n : ℚ)) ((mx - mn) / (n : ℚ)) =
      some (arangeVals mn ((mx - mn) / (n : ℚ)) (n + 1)) := by
  have hn0 : ((n : ℚ)) ≠ 0 := Nat.cast_ne_zero.mpr hn.ne'
  have hstep : (0 : ℚ) < (mx - mn) / (n : ℚ) := by
    apply div_pos (by linarith) (by exact_mod_cast hn)
  have hmul : ((n : ℚ)) * ((mx - mn) / (n : ℚ)) = mx - mn := by
    field_simp
  have hratio : (mx + (mx - mn) / (n : ℚ) - mn) / ((mx - mn) / (n : ℚ))
      = ((n + 1 : Nat) : ℚ) := by
    rw [div_eq_iff hstep.ne']
    push_cast
    field_simp
    ring
  rw [np_arange, if_neg hstep.ne', hratio, Int.ceil_natCast, Int.toNat_natCast]

/-! ### General lemmas about the embedded operations -/

theorem insertRank_perm (x : Nat × (String × Option ℚ))
    (l : List (Nat × (String × Option ℚ))) :
    List.Perm (insertRank x l) (x :: l) := by
  induction l with
  | nil => simp [insertRank]
  | cons y ys ih =>
    by_cases h : pyKeyLe x y = true
    · simp [insertRank, h]
    · simp only [insertRank, if_neg h]
      exact (ih.cons y).trans (List.Perm.swap x y ys)

theorem foldr_insertRank_perm (l : List (Nat × (String × Option ℚ))) :
    List.Perm (l.foldr insertRank []) l := by
  induction l with
  | nil => rfl
  | cons x xs ih => exact (insertRank_perm x (xs.foldr insertRank [])).trans (ih.cons x)

theorem tagIdx_map_snd (l : List α) : ∀ i, (tagIdx i l).map Prod.snd = l := by
  induction l with
  | nil => intro i; rfl
  | cons x xs ih => intro i; simp [tagIdx, ih]

/-- The sorted rank dictionary is a permutation of the unsorted entry
list: sorting drops or duplicates no signal. -/
theorem sorted_by_score_desc_perm (l : List (String × Option ℚ)) :
    List.Perm (sorted_by_score_desc l) l := by
  have h := (foldr_insertRank_perm (tagIdx 0 l)).map Prod.snd
  rwa [tagIdx_map_snd l 0] at h

theorem mem_sorted_by_score_desc {l : List (String × Option ℚ)}
    {x : String × Option ℚ} : x ∈ sorted_by_score_desc l ↔ x ∈ l :=
  (sorted_by_score_desc_perm l).mem_iff

/-- Reading the unset `ts_label_evaluation` attribute raises, so the
per-signal score falls to the `except` branch. -/
theorem signal_score_label_none (n : Nat) (nrm : Option (List Nat))
    (sig : List (Nat × ℚ)) : signal_score n none nrm sig = some 0 := rfl

theorem foldl_min_le (xs : List ℚ) : ∀ a : ℚ,
    xs.foldl min a ≤ a ∧ ∀ x ∈ xs, xs.foldl min a ≤ x := by
  induction xs with
  | nil => exact fun a => ⟨le_refl a, by simp⟩
  | cons y ys ih =>
    intro a
    refine ⟨le_trans (ih (min a y)).1 (min_le_left a y), fun x hx => ?_⟩
    rcases List.mem_cons.mp hx with rfl | hx
    · exact le_trans (ih (min a x)).1 (min_le_right a x)
    · exact (ih (min a y)).2 x hx

theorem foldl_max_ge (xs : List ℚ) : ∀ a : ℚ,
    a ≤ xs.foldl max a ∧ ∀ x ∈ xs, x ≤ xs.foldl max a := by
  induction xs with
  | nil => exact fun a => ⟨le_refl a, by simp⟩
  | cons y ys ih =>
    intro a
    refine ⟨le_trans (le_max_left a y) (ih (max a y)).1, fun x hx => ?_⟩
    rcases List.mem_cons.mp hx with rfl | hx
    · exact le_trans (le_max_right a x) (ih (max a x)).1
    · exact (ih (max a y)).2 x hx

/-- `np.min` bounds every element from below. -/
theorem np_min_le {l : List ℚ} {mn : ℚ} (h : np_min l = some mn) :
    ∀ x ∈ l, mn ≤ x := by
  cases l with
  | nil => cases h
  | cons y ys =>
    intro x hx
    have hfold : ys.foldl min y = mn := by
      simpa [np_min] using h
    rcases List.mem_cons.mp hx with rfl | hx
    · exact hfold ▸ (foldl_min_le ys x).1
    · exact hfold ▸ (foldl_min_le ys y).2 x hx

/-- `np.max` bounds every element from above. -/
theorem le_np_max {l : List ℚ} {mx : ℚ} (h : np_max l = some mx) :
    ∀ x ∈ l, x ≤ mx := by
  cases l with
  | nil => cases h
  | cons y ys =>
    intro x hx
    have hfold : ys.foldl max y = mx := by
      simpa [np_max] using h
    rcases List.mem_cons.mp hx with rfl | hx
    · exact hfold ▸ (foldl_max_ge ys x).1
    · exact hfold ▸ (foldl_max_ge ys y).2 x hx

/-- A successful single-label lookup returns a value of the column. -/
theorem tsLookup_mem {sig : List (Nat × ℚ)} {t : Nat} {v : ℚ}
    (h : tsLookup sig t = some v) : v ∈ colValues sig := by
  rw [tsLookup] at h
  cases hF : List.find? (fun p => p.1 == t) sig with
  | none => rw [hF] at h; cases h
  | some p =>
    rw [hF] at h
    cases h
    exact List.mem_map.mpr ⟨p, List.mem_of_find?_eq_some hF, rfl⟩

/-- Every value selected by a successful `.loc` comes from the signal's
column. -/
theorem locList_mem {sig : List (Nat × ℚ)} :
    ∀ {ts : List Nat} {vs : List ℚ}, locList sig ts = some vs →
      ∀ v ∈ vs, v ∈ colValues sig := by
  intro ts
  induction ts with
  | nil =>
    intro vs h v hv
    cases h
    cases hv
  | cons t ts ih =>
    intro vs h v hv
    rw [locList] at h
    cases hL : tsLookup sig t with
    | none => rw [hL] at h; cases h
    | some w =>
      rw [hL] at h
      cases hR : locList sig ts with
      | none => rw [hR] at h; cases h
      | some ws =>
        rw [hR] at h
        cases h
        rcases List.mem_cons.mp hv with rfl | hv
        · exact tsLookup_mem hL
        · exact ih hR v hv

theorem arangeVals_length (s w : ℚ) : ∀ n, (arangeVals s w n).length = n := by
  intro n
  induction n with
  | zero => rfl
  | succ n ih => simp [arangeVals, ih]

/-- The arithmetic progression, rebuilt from the front. -/
theorem arangeVals_cons (s w : ℚ) :
    ∀ n, arangeVals s w (n + 1) = s :: arangeVals (s + w) w n := by
  intro n
  induction n with
  | zero => simp [arangeVals]
  | succ n ih =>
    have hstep : s + ((n : ℚ) + 1) * w = s + w + (n : ℚ) * w := by ring
    calc arangeVals s w (n + 2)
        = arangeVals s w (n + 1) ++ [s + ((n + 1 : Nat) : ℚ) * w] := by
          rw [arangeVals]
      _ = s :: (arangeVals (s + w) w n ++ [s + w + (n : ℚ) * w]) := by
          rw [ih]; push_cast; rw [hstep]; rfl
      _ = s :: arangeVals (s + w) w (n + 1) := by rw [arangeVals]

theorem arangeVals_getLastD (s w : ℚ) (n : Nat) :
    (arangeVals s w (n + 1)).getLastD 0 = s + (n : ℚ) * w := by
  rw [arangeVals, List.getLastD_concat]

/-- If some data point lies between the first and last bin edge, the
histogram's total in-range count is positive. -/
theorem histCounts_sum_pos {data : List ℚ} {x : ℚ} (hx : x ∈ data) :
    ∀ (rest : List ℚ) (lo : ℚ), rest ≠ [] → lo ≤ x →
      x ≤ (lo :: rest).getLastD 0 →
      0 < (histCounts data (lo :: rest)).sum := by
  intro rest
  induction rest with
  | nil => intro lo h; cases h rfl
  | cons hi rest ih =>
    intro lo _ hlo hlast
    cases rest with
    | nil =>
      have hhi : x ≤ hi := by
        simpa [List.getLastD_cons] using hlast
      have : 0 < data.countP fun y => decide (lo ≤ y) && decide (y ≤ hi) :=
        List.countP_pos_iff.mpr ⟨x, hx, by simp [hlo, hhi]⟩
      simpa [histCounts] using this
    | cons r0 rest =>
      by_cases hxhi : x < hi
      · have hcount : 0 < data.countP fun y => decide (lo ≤ y) && decide (y < hi) :=
          List.countP_pos_iff.mpr ⟨x, hx, by simp [hlo, hxhi]⟩
        rw [histCounts, List.sum_cons]
        exact Nat.lt_of_lt_of_le hcount (Nat.le_add_right _ _)
      · have htail := ih hi (by simp) (le_of_not_lt hxhi)
          (by simpa [List.getLastD_cons] using hlast)
        rw [histCounts, List.sum_cons]
        exact Nat.lt_of_lt_of_le htail (Nat.le_add_left _ _)

/-- The density histogram of data reaching into the edge range is a real
(non-NaN) array. -/
theorem np_histogram_density_isSome {data : List ℚ} {x : ℚ} (hx : x ∈ data)
    (rest : List ℚ) (lo : ℚ) (hne : rest ≠ []) (hlo : lo ≤ x)
    (hlast : x ≤ (lo :: rest).getLastD 0) :
    ∃ u, np_histogram_density (lo :: rest) data = some u := by
  have hpos := histCounts_sum_pos hx rest lo hne hlo hlast
  have htot : histTotal (lo :: rest) data ≠ 0 := by
    rw [histTotal, ← Nat.cast_list_sum]
    exact_mod_cast hpos.ne'
  exact ⟨_, by rw [np_histogram_density, if_neg htot]⟩

/-- scipy's sample-based distance of a list against itself is zero. -/
theorem wasserstein_distance_self (u : List ℚ) :
    wasserstein_distance u u = 0 := by
  rw [wasserstein_distance]
  apply List.sum_eq_zero
  intro y hy
  obtain ⟨p, _, rfl⟩ := List.mem_map.mp hy
  simp [rabs]

/-! ### Claim C4 -/

/-- C4: when both index arguments are passed explicitly (non-None),
`compute_histograms` ignores them: the branch that would set the
partition attributes is skipped and the per-signal computation reads the
stored `ts_normal_training` / `ts_label_evaluation`.  On an object where
those attributes were never set, the call returns the same result for
any supplied indices, and every signal's score is 0.0. -/
theorem C4_explicit_arguments_ignored (a : Analysis) (n : Nat)
    (i1 i2 j1 j2 : List Nat)
    (hN : a.ts_normal_training = none) (hL : a.ts_label_evaluation = none) :
    compute_histograms a (some i1) (some i2) n =
      compute_histograms a (some j1) (some j2) n ∧
    ∃ r, compute_histograms a (some i1) (some i2) n = some r ∧
      ∀ p ∈ r.rank, p.2 = some 0 := by
  refine ⟨rfl, _, rfl, fun p hp => ?_⟩
  simp only [compute_histograms, Option.isNone_some, Bool.or_self,
    Bool.false_eq_true, if_false, Option.map_some, hN, hL] at hp
  obtain ⟨q, _, rfl⟩ :=
    List.mem_map.mp (mem_sorted_by_score_desc.mp hp)
  exact signal_score_label_none n none q.2

def exA4 : Analysis :=
  { df_list := [("t", [(0, 2), (1, 3)])], predicted_ranges := []
    evaluation_start := 0, evaluation_end := 1
    ts_normal_training := none, ts_label_evaluation := none }

/-- Witness for C4: a concrete never-initialized analysis object, two
different explicit index pairs. -/
theorem C4_explicit_arguments_ignored_witness :
    compute_histograms exA4 (some [0]) (some [1]) 2 =
      compute_histograms exA4 (some [7]) (some [9]) 2 ∧
    ∃ r, compute_histograms exA4 (some [0]) (some [1]) 2 = some r ∧
      ∀ p ∈ r.rank, p.2 = some 0 :=
  C4_explicit_arguments_ignored exA4 2 [0] [1] [7] [9] rfl rfl

/-! ### Claim C10 -/

/-- C10: the rasterized partition depends on the predicted ranges only
through the set of timestamps they cover: any two interval lists with
the same coverage — in particular a list with duplicated or overlapping
intervals and its merged, non-overlapping equivalent — give the same
(normal, anomalous) split. -/
theorem C10_rasterization_idempotent (a : Analysis) (ranges : List Interval)
    (hcov : ∀ t, covered a.predicted_ranges t = covered ranges t) :
    get_time_ranges a =
      get_time_ranges { a with predicted_ranges := ranges } := by
  have hfun : covered a.predicted_ranges = covered ranges := funext hcov
  simp only [get_time_ranges, hfun]

def exA10 : Analysis :=
  { df_list :=
      [("t", [(0, 1), (1, 1), (2, 1), (3, 1), (4, 1), (5, 1), (6, 1)])]
    predicted_ranges := [⟨1, 3⟩, ⟨2, 5⟩, ⟨1, 3⟩]
    evaluation_start := 0, evaluation_end := 6
    ts_normal_training := none, ts_label_evaluation := none }

/-- Witness for C10: a duplicated and overlapping interval list against
its merged equivalent `[1, 5]`. -/
theorem C10_rasterization_idempotent_witness :
    get_time_ranges exA10 =
      get_time_ranges { exA10 with predicted_ranges := [⟨1, 5⟩] } :=
  C10_rasterization_idempotent exA10 [⟨1, 5⟩] (by
    intro t
    rw [Bool.eq_iff_iff]
    simp only [exA10, covered, List.any_cons, List.any_nil, Bool.or_false,
      Bool.or_eq_true, Bool.and_eq_true, decide_eq_true_eq]
    omega)

/-! ### Claim C5 -/

/-- A failing `.loc` lookup on either partition raises inside the `try:`
block, so the bare `except` records 0.0 for that signal. -/
theorem signal_score_missing_label (n : Nat) (lbl nrm : List Nat)
    (sig : List (Nat × ℚ))
    (h : locList sig lbl = none ∨ locList sig nrm = none) :
    signal_score n (some lbl) (some nrm) sig = some 0 := by
  rcases h with h | h
  · simp only [signal_score, signal_score_raw, h]
  · cases hE : locList sig lbl with
    | none => simp only [signal_score, signal_score_raw, hE]
    | some ev => simp only [signal_score, signal_score_raw, hE, h]

def exA5 : Analysis :=
  { df_list := [("m", [(0, 1), (1, 4)])], predicted_ranges := []
    evaluation_start := 0, evaluation_end := 1
    ts_normal_training := some [0, 1], ts_label_evaluation := some [2] }

/-- Counterexample to C5 as stated: signal `m` has no row for the
anomalous timestamp 2, yet `compute_histograms` does not fail: it
completes and records the score 0.0 for `m`. -/
theorem C5_counterexample_error_masked :
    ∃ r, compute_histograms exA5 (some [0]) (some [0]) 3 = some r ∧
      r.rank = [("m", some 0)] :=
  ⟨_, rfl, rfl⟩

/-- C5 amended: when a signal's series is missing a timestamp of either
partition, the `.loc` `KeyError` is caught by the per-signal bare
`except`, the signal is recorded with score 0.0 and kept in the ranking;
no "incompatible index" error propagates to the caller. -/
theorem C5_missing_timestamp_masked (a : Analysis) (n : Nat)
    (i1 i2 lbl nrm : List Nat)
    (hL : a.ts_label_evaluation = some lbl)
    (hN : a.ts_normal_training = some nrm)
    (p : String × List (Nat × ℚ)) (hp : p ∈ a.df_list)
    (hmiss : locList p.2 lbl = none ∨ locList p.2 nrm = none) :
    ∃ r, compute_histograms a (some i1) (some i2) n = some r ∧
      (p.1, some 0) ∈ r.rank := by
  refine ⟨_, rfl, ?_⟩
  simp only [compute_histograms, Option.isNone_some, Bool.or_self,
    Bool.false_eq_true, if_false, Option.map_some, hN, hL]
  rw [mem_sorted_by_score_desc]
  refine List.mem_map.mpr ⟨p, hp, ?_⟩
  rw [signal_score_missing_label n lbl nrm p.2 hmiss]

/-- Witness for the amended C5 at the concrete analysis object of the
counterexample. -/
theorem C5_missing_timestamp_masked_witness :
    ∃ r, compute_histograms exA5 (some [0]) (some [0]) 3 = some r ∧
      (("m" : String), some (0 : ℚ)) ∈ r.rank :=
  C5_missing_timestamp_masked exA5 3 [0] [0] [2] [0, 1] rfl rfl
    ("m", [(0, 1), (1, 4)]) (by simp [exA5]) (Or.inl rfl)

/-! ### Claim C9 -/

/-- A successful `.loc` on a non-empty label list returns a non-empty
value list. -/
theorem locList_ne_nil {sig : List (Nat × ℚ)} {t : Nat} {ts : List Nat}
    {vs : List ℚ} (h : locList sig (t :: ts) = some vs) :
    ∃ v vs', vs = v :: vs' := by
  rw [locList] at h
  cases hL : tsLookup sig t with
  | none => rw [hL] at h; cases h
  | some v =>
    rw [hL] at h
    cases hR : locList sig ts with
    | none => rw [hR] at h; cases h
    | some ws => rw [hR] at h; cases h; exact ⟨v, ws, rfl⟩

/-- When both partitions are the same non-empty timestamp list, every
signal scores 0.0: each failure mode is caught to 0.0, and a successful
computation compares a histogram against itself. -/
theorem signal_score_same_partitions (n : Nat) (ts : List Nat)
    (hts : ts ≠ []) (sig : List (Nat × ℚ)) :
    signal_score n (some ts) (some ts) sig = some 0 := by
  obtain ⟨t, ts', rfl⟩ := List.exists_cons_of_ne_nil hts
  cases hloc : locList sig (t :: ts') with
  | none => exact signal_score_missing_label n _ _ sig (Or.inl hloc)
  | some vals =>
    simp only [signal_score, signal_score_raw, hloc, histogram_step]
    cases hmx : np_max (colValues sig) with
    | none => rfl
    | some mx =>
      cases hmn : np_min (colValues sig) with
      | none => rfl
      | some mn =>
        by_cases hw : (mx - mn) / (n : ℚ) = 0
        · simp [np_arange, hw]
        · have hn : 0 < n := by
            rcases Nat.eq_zero_or_pos n with h0 | h
            · exact absurd (by rw [h0]; norm_num) hw
            · exact h
          have hn0 : ((n : ℚ)) ≠ 0 := Nat.cast_ne_zero.mpr hn.ne'
          have hsig_ne : colValues sig ≠ [] := by
            intro hnil; rw [hnil] at hmx; cases hmx
          have hmnmx : mn ≤ mx := by
            obtain ⟨y, ys, hys⟩ := List.exists_cons_of_ne_nil hsig_ne
            have h1 := np_min_le hmn y (by rw [hys]; exact List.mem_cons_self y ys)
            have h2 := le_np_max hmx y (by rw [hys]; exact List.mem_cons_self y ys)
            linarith
          have hlt : mn < mx := lt_of_le_of_ne hmnmx
            (fun he => hw (by rw [he, sub_self, zero_div]))
          simp only [np_arange_eval mn mx n hn hlt]
          rw [if_neg (by rw [arangeVals_length]; omega)]
          cases hden : np_histogram_density
              (arangeVals mn ((mx - mn) / (n : ℚ)) (n + 1)) vals with
          | none =>
            exfalso
            obtain ⟨v, vs', rfl⟩ := locList_ne_nil hloc
            have hvmem : v ∈ v :: vs' := List.mem_cons_self v vs'
            have hvcol := locList_mem hloc v hvmem
            have hcons := arangeVals_cons mn ((mx - mn) / (n : ℚ)) n
            have hrest_ne :
                arangeVals (mn + (mx - mn) / (n : ℚ)) ((mx - mn) / (n : ℚ)) n ≠ [] :=
              List.length_pos.mp (by rw [arangeVals_length]; omega)
            have heq : mn + (n : ℚ) * ((mx - mn) / (n : ℚ)) = mx := by
              field_simp
            have hlast : v ≤ (mn :: arangeVals (mn + (mx - mn) / (n : ℚ))
                ((mx - mn) / (n : ℚ)) n).getLastD 0 := by
              rw [← hcons, arangeVals_getLastD, heq]
              exact le_np_max hmx v hvcol
            obtain ⟨u, hu⟩ := np_histogram_density_isSome hvmem _ mn hrest_ne
              (np_min_le hmn v hvcol) hlast
            rw [hcons, hu] at hden
            cases hden
          | some u =>
            simp only [hden, wasserstein_distance_self]

/-- Counterexample to C9 as stated: with both partitions set to the same
*empty* timestamp list, the one well-behaved signal gets the score NaN
(the empty partition's density histogram is all-NaN), not 0.0. -/
theorem C9_counterexample_empty_same_partitions :
    ∃ r, compute_histograms
        { df_list := [("s", [(0, 1), (1, 2)])], predicted_ranges := []
          evaluation_start := 0, evaluation_end := 1
          ts_normal_training := some [], ts_label_evaluation := some [] }
        (some [0]) (some [0]) 2 = some r ∧
      r.rank = [("s", none)] := by
  refine ⟨_, rfl, ?_⟩
  have hscore : signal_score 2 (some []) (some [])
      [((0 : Nat), (1 : ℚ)), (1, 2)] = none := by
    simp only [signal_score, signal_score_raw,
      show locList [((0 : Nat), (1 : ℚ)), (1, 2)] [] = some [] from rfl,
      histogram_step,
      show np_max (colValues [((0 : Nat), (1 : ℚ)), (1, 2)]) = some 2 from rfl,
      show np_min (colValues [((0 : Nat), (1 : ℚ)), (1, 2)]) = some 1 from rfl]
    rw [np_arange_eval 1 2 2 (by norm_num) (by norm_num)]
    norm_num [arangeVals, np_histogram_density, histTotal, histCounts,
      edgeDiffs]
  simp only [List.map_cons, List.map_nil, hscore]
  rfl

/-- C9 amended: restricted to a non-empty shared timestamp list the
claim holds — when both partition attributes hold the same non-empty
timestamps, every signal's score is 0.0. -/
theorem C9_same_nonempty_partitions_zero (a : Analysis) (n : Nat)
    (i1 i2 ts : List Nat) (hts : ts ≠ [])
    (hN : a.ts_normal_training = some ts)
    (hL : a.ts_label_evaluation = some ts) :
    ∃ r, compute_histograms a (some i1) (some i2) n = some r ∧
      ∀ p ∈ r.rank, p.2 = some 0 := by
  refine ⟨_, rfl, fun p hp => ?_⟩
  simp only [compute_histograms, Option.isNone_some, Bool.or_self,
    Bool.false_eq_true, if_false, Option.map_some, hN, hL] at hp
  obtain ⟨q, _, rfl⟩ := List.mem_map.mp (mem_sorted_by_score_desc.mp hp)
  exact signal_score_same_partitions n ts hts q.2

/-- Witness for the amended C9: one signal, both partitions `[0, 1]`. -/
theorem C9_same_nonempty_partitions_zero_witness :
    ∃ r, compute_histograms
        { df_list := [("s", [(0, 1), (1, 2)])], predicted_ranges := []
          evaluation_start := 0, evaluation_end := 1
          ts_normal_training := some [0, 1], ts_label_evaluation := some [0, 1] }
        (some [0]) (some [0]) 2 = some r ∧
      ∀ p ∈ r.rank, p.2 = some 0 :=
  C9_same_nonempty_partitions_zero _ 2 [0] [0] [0, 1] (by simp) rfl rfl

/-! ### Claim C3 -/

/-- The explicit-arguments call path of `compute_histograms`, made
explicit: stored attributes are used, the arguments play no role. -/
theorem compute_histograms_explicit (a : Analysis) (i1 i2 : List Nat)
    (n : Nat) :
    compute_histograms a (some i1) (some i2) n =
      some { ts_normal_training := a.ts_normal_training
             ts_label_evaluation := a.ts_label_evaluation
             num_bins := n
             rank := sorted_by_score_desc (a.df_list.map fun p =>
               (p.1, signal_score n a.ts_label_evaluation
                 a.ts_normal_training p.2)) } := rfl

/-- The defaulted call path of `compute_histograms`: both partitions are
taken from `_get_time_ranges`. -/
theorem compute_histograms_defaults (a : Analysis) (n : Nat)
    {nrm anm : List Nat} (h : get_time_ranges a = some (nrm, anm)) :
    compute_histograms a none none n =
      some { ts_normal_training := some nrm
             ts_label_evaluation := some anm
             num_bins := n
             rank := sorted_by_score_desc (a.df_list.map fun p =>
               (p.1, signal_score n (some anm) (some nrm) p.2)) } := by
  simp only [compute_histograms, Option.isNone_none, Bool.or_self, h,
    Option.map_some]
  rfl

/-- Every count of a histogram over the empty data list is zero. -/
theorem histCounts_nil : ∀ edges : List ℚ, ∀ c ∈ histCounts [] edges, c = 0 := by
  intro edges
  induction edges with
  | nil => intro c hc; cases hc
  | cons lo rest ih =>
    intro c hc
    cases rest with
    | nil => cases hc
    | cons hi rest' =>
      cases rest' with
      | nil =>
        rcases List.mem_cons.mp hc with rfl | h
        · rfl
        · cases h
      | cons r0 rest'' =>
        rw [histCounts] at hc
        rcases List.mem_cons.mp hc with rfl | h
        · rfl
        · exact ih c h

/-- `np.histogram(..., density=True)` of an empty partition is the
all-NaN array. -/
theorem np_histogram_density_nil (edges : List ℚ) :
    np_histogram_density edges [] = none := by
  have htot : histTotal edges [] = 0 := by
    rw [histTotal]
    apply List.sum_eq_zero
    intro x hx
    obtain ⟨c, hc, rfl⟩ := List.mem_map.mp hx
    rw [histCounts_nil edges c hc, Nat.cast_zero]
  rw [np_histogram_density, if_pos htot]

/-- With an empty evaluation partition, each signal's score is NaN when
the per-signal computation reaches the distance step, and 0.0 when an
exception is caught on the way. -/
theorem signal_score_empty_label (n : Nat) (nrmo : Option (List Nat))
    (sig : List (Nat × ℚ)) :
    signal_score n (some []) nrmo sig = none ∨
      signal_score n (some []) nrmo sig = some 0 := by
  cases nrmo with
  | none => exact Or.inr rfl
  | some nrm =>
    cases hR : locList sig nrm with
    | none => exact Or.inr (signal_score_missing_label n [] nrm sig (Or.inr hR))
    | some trainVals =>
      simp only [signal_score, signal_score_raw,
        show locList sig [] = some [] from rfl, hR, histogram_step]
      cases hmx : np_max (colValues sig) with
      | none => exact Or.inr rfl
      | some mx =>
        cases hmn : np_min (colValues sig) with
        | none => exact Or.inr rfl
        | some mn =>
          simp only []
          cases hA : np_arange mn (mx + (mx - mn) / (n : ℚ))
              ((mx - mn) / (n : ℚ)) with
          | none => exact Or.inr rfl
          | some edges =>
            simp only []
            by_cases hlen : edges.length < 2
            · rw [if_pos hlen]; exact Or.inr rfl
            · rw [if_neg hlen, np_histogram_density_nil]
              cases hU : np_histogram_density edges trainVals with
              | none => exact Or.inl rfl
              | some u => exact Or.inl rfl

def exA3 : Analysis :=
  { df_list := [("s3", [(0, 1), (1, 2)])], predicted_ranges := []
    evaluation_start := 0, evaluation_end := 1
    ts_normal_training := none, ts_label_evaluation := none }

/-- Counterexample to C3 as stated: no anomaly intervals, a well-behaved
signal over the evaluation window — `compute_histograms` completes but
records the score NaN, not 0.0. -/
theorem C3_counterexample_nan_not_zero :
    ∃ r, compute_histograms exA3 none none 5 = some r ∧
      r.rank = [("s3", none)] := by
  rw [compute_histograms_defaults exA3 5
    (show get_time_ranges exA3 = some ([0, 1], []) from rfl)]
  refine ⟨_, rfl, ?_⟩
  have hscore : signal_score 5 (some []) (some [0, 1])
      [((0 : Nat), (1 : ℚ)), (1, 2)] = none := by
    simp only [signal_score, signal_score_raw,
      show locList [((0 : Nat), (1 : ℚ)), (1, 2)] [] = some [] from rfl,
      show locList [((0 : Nat), (1 : ℚ)), (1, 2)] [0, 1] = some [1, 2] from rfl,
      histogram_step,
      show np_max (colValues [((0 : Nat), (1 : ℚ)), (1, 2)]) = some 2 from rfl,
      show np_min (colValues [((0 : Nat), (1 : ℚ)), (1, 2)]) = some 1 from rfl]
    rw [np_arange_eval 1 2 5 (by norm_num) (by norm_num)]
    simp only []
    rw [if_neg (by rw [arangeVals_length]; omega), np_histogram_density_nil]
    cases hU : np_histogram_density
        (arangeVals 1 ((2 - 1) / ((5 : Nat) : ℚ)) (5 + 1)) [1, 2] with
    | none => rfl
    | some u => rfl
  simp only [exA3, List.map_cons, List.map_nil, hscore]
  rfl

/-- C3 amended: with no anomaly intervals supplied and a non-empty
signal dictionary, `compute_histograms` completes without raising, the
anomalous partition is empty, and every signal's score is either NaN
(when its computation succeeds — the empty partition's density is
all-NaN) or 0.0 (when its computation raises and is caught); no signal
receives a real nonzero score. -/
theorem C3_empty_anomaly_scores (a : Analysis) (n : Nat)
    (hpred : a.predicted_ranges = []) (hdf : a.df_list ≠ []) :
    ∃ r, compute_histograms a none none n = some r ∧
      r.ts_label_evaluation = some [] ∧
      ∀ p ∈ r.rank, p.2 = none ∨ p.2 = some 0 := by
  obtain ⟨q, rest, hdl⟩ := List.exists_cons_of_ne_nil hdf
  have hgtr : get_time_ranges a =
      some ((q.2.map Prod.fst).filter fun t =>
        decide (a.evaluation_start ≤ t) && decide (t ≤ a.evaluation_end), []) := by
    obtain ⟨tag, df⟩ := q
    simp only [get_time_ranges, hdl, hpred, covered, List.any_nil,
      Bool.not_false, List.filter_true]
    rw [List.filter_congr (fun t _ => rfl :
      ∀ t ∈ (df.map Prod.fst).filter fun t =>
        decide (a.evaluation_start ≤ t) && decide (t ≤ a.evaluation_end),
          (false : Bool) = false)]
    rw [List.filter_false]
  rw [compute_histograms_defaults a n hgtr]
  refine ⟨_, rfl, rfl, fun p hp => ?_⟩
  obtain ⟨s, _, rfl⟩ := List.mem_map.mp (mem_sorted_by_score_desc.mp hp)
  exact signal_score_empty_label n _ s.2

/-- Witness for the amended C3 at a concrete two-signal input (one
degenerate signal caught to 0.0, one healthy signal scoring NaN). -/
theorem C3_empty_anomaly_scores_witness :
    ∃ r, compute_histograms
        { df_list := [("s3", [(0, 1), (1, 2)]), ("c3", [(0, 7), (1, 7)])]
          predicted_ranges := []
          evaluation_start := 0, evaluation_end := 1
          ts_normal_training := none, ts_label_evaluation := none }
        none none 5 = some r ∧
      r.ts_label_evaluation = some [] ∧
      ∀ p ∈ r.rank, p.2 = none ∨ p.2 = some 0 :=
  C3_empty_anomaly_scores _ 5 rfl (by simp)

/-! ### Claim C6 -/

/-- A degenerate signal (all values equal, or no values at all) raises
in the binning step: the bin width is zero, `np.arange` raises
`ZeroDivisionError` (or `np.max` raises on the empty column). -/
theorem histogram_step_degenerate (n : Nat) (sig : List (Nat × ℚ))
    (tv ev : List ℚ)
    (hdeg : np_min (colValues sig) = np_max (colValues sig)) :
    histogram_step n sig tv ev = Except.error () := by
  rw [histogram_step]
  cases hmx : np_max (colValues sig) with
  | none => rfl
  | some mx =>
    rw [hdeg, hmx]
    simp only [sub_self, zero_div]
    simp [np_arange]

/-- A degenerate signal's score is always 0.0, whatever the partitions
are. -/
theorem signal_score_degenerate (n : Nat) (lblo nrmo : Option (List Nat))
    (sig : List (Nat × ℚ))
    (hdeg : np_min (colValues sig) = np_max (colValues sig)) :
    signal_score n lblo nrmo sig = some 0 := by
  cases lblo with
  | none => rfl
  | some lbl =>
    cases hE : locList sig lbl with
    | none => simp only [signal_score, signal_score_raw, hE]
    | some ev =>
      cases nrmo with
      | none => simp only [signal_score, signal_score_raw, hE]
      | some nrm =>
        cases hT : locList sig nrm with
        | none => simp only [signal_score, signal_score_raw, hE, hT]
        | some tv =>
          simp only [signal_score, signal_score_raw, hE, hT,
            histogram_step_degenerate n sig tv ev hdeg]

def exA6 : Analysis :=
  { df_list := [("x6", [(0, 3), (1, 7)])], predicted_ranges := []
    evaluation_start := 0, evaluation_end := 1
    ts_normal_training := some [0, 1], ts_label_evaluation := some [] }

/-- Counterexample to C6 as stated: signal `x6` has empty partition
values on the anomalous side, a failure case the claim says is scored
0.0 — but its recorded score is NaN. -/
theorem C6_counterexample_empty_partition_nan :
    ∃ r, compute_histograms exA6 (some [2]) (some [3]) 4 = some r ∧
      r.rank = [("x6", none)] := by
  refine ⟨_, rfl, ?_⟩
  have hscore : signal_score 4 (some []) (some [0, 1])
      [((0 : Nat), (3 : ℚ)), (1, 7)] = none := by
    simp only [signal_score, signal_score_raw,
      show locList [((0 : Nat), (3 : ℚ)), (1, 7)] [] = some [] from rfl,
      show locList [((0 : Nat), (3 : ℚ)), (1, 7)] [0, 1] = some [3, 7] from rfl,
      histogram_step,
      show np_max (colValues [((0 : Nat), (3 : ℚ)), (1, 7)]) = some 7 from rfl,
      show np_min (colValues [((0 : Nat), (3 : ℚ)), (1, 7)]) = some 3 from rfl]
    rw [np_arange_eval 3 7 4 (by norm_num) (by norm_num)]
    simp only []
    rw [if_neg (by rw [arangeVals_length]; omega), np_histogram_density_nil]
    cases hU : np_histogram_density
        (arangeVals 3 ((7 - 3) / ((4 : Nat) : ℚ)) (4 + 1)) [3, 7] with
    | none => rfl
    | some u => rfl
  simp only [compute_histograms_explicit, exA6, List.map_cons, List.map_nil,
    hscore]
  rfl

/-- C6 amended: the rank dictionary keeps exactly one entry per input
signal, a degenerate-range signal (including an empty one) is scored
0.0, and a signal whose anomalous partition is empty is scored NaN when
its computation otherwise succeeds (0.0 when it raises): caught
exceptions yield 0.0, but the empty-partition "failure" yields NaN, and
in all cases the signal stays in the ranking. -/
theorem C6_failure_policy (a : Analysis) (n : Nat) (i1 i2 : List Nat) :
    ∃ r, compute_histograms a (some i1) (some i2) n = some r ∧
      List.Perm r.rank (a.df_list.map fun p =>
        (p.1, signal_score n a.ts_label_evaluation a.ts_normal_training p.2)) ∧
      (∀ p ∈ a.df_list,
        np_min (colValues p.2) = np_max (colValues p.2) →
          signal_score n a.ts_label_evaluation a.ts_normal_training p.2
            = some 0) ∧
      (a.ts_label_evaluation = some [] → ∀ p ∈ a.df_list,
        signal_score n a.ts_label_evaluation a.ts_normal_training p.2 = none ∨
        signal_score n a.ts_label_evaluation a.ts_normal_training p.2
          = some 0) := by
  refine ⟨_, rfl, sorted_by_score_desc_perm _, fun p _ hdeg => ?_, fun hlbl p _ => ?_⟩
  · exact signal_score_degenerate n _ _ p.2 hdeg
  · rw [hlbl]
    exact signal_score_empty_label n _ p.2

/-- Witness for the amended C6 at a concrete input. -/
theorem C6_failure_policy_witness :
    ∃ r, compute_histograms exA6 (some [2]) (some [3]) 4 = some r ∧
      List.Perm r.rank (exA6.df_list.map fun p =>
        (p.1, signal_score 4 exA6.ts_label_evaluation
          exA6.ts_normal_training p.2)) ∧
      (∀ p ∈ exA6.df_list,
        np_min (colValues p.2) = np_max (colValues p.2) →
          signal_score 4 exA6.ts_label_evaluation exA6.ts_normal_training p.2
            = some 0) ∧
      (exA6.ts_label_evaluation = some [] → ∀ p ∈ exA6.df_list,
        signal_score 4 exA6.ts_label_evaluation exA6.ts_normal_training p.2
            = none ∨
        signal_score 4 exA6.ts_label_evaluation exA6.ts_normal_training p.2
            = some 0) :=
  C6_failure_policy exA6 4 [2] [3]

/-! ### Claim C8 -/

theorem edgeDiffs_arangeVals (w : ℚ) :
    ∀ (n : Nat) (s : ℚ),
      edgeDiffs (arangeVals s w (n + 1)) = List.replicate n w := by
  intro n
  induction n with
  | zero =>
    intro s
    rw [arangeVals_cons]
    rfl
  | succ n ih =>
    intro s
    rw [arangeVals_cons, arangeVals_cons]
    rw [show edgeDiffs (s :: (s + w) :: arangeVals (s + w + w) w n)
        = (s + w - s) :: edgeDiffs ((s + w) :: arangeVals (s + w + w) w n)
      from rfl]
    rw [← arangeVals_cons, ih (s + w), add_sub_cancel_left,
      List.replicate_succ]

/-- C8 amended: the bin edges are built from the minimum and maximum
over ALL values of the signal with `bin_width = (max - min)/num_bins`;
in exact arithmetic `np.arange(min, max + bin_width, bin_width)` yields
the `num_bins + 1` edges `min + k * bin_width` whose last entry is `max`
itself, so the `num_bins` equal-width bins span `[min_v, max_v]` — not
`[min_v, max_v + bin_width)` — and the *same* edge list is used for both
the normal and the anomalous histogram. -/
theorem C8_shared_bin_edges (n : Nat) (sig : List (Nat × ℚ))
    (tv ev : List ℚ) (mn mx : ℚ)
    (hmn : np_min (colValues sig) = some mn)
    (hmx : np_max (colValues sig) = some mx)
    (hn : 0 < n) (hlt : mn < mx) :
    ∃ edges : List ℚ,
      edges = arangeVals mn ((mx - mn) / (n : ℚ)) (n + 1) ∧
      edges.length = n + 1 ∧
      edges.head? = some mn ∧
      edges.getLastD 0 = mx ∧
      edgeDiffs edges = List.replicate n ((mx - mn) / (n : ℚ)) ∧
      histogram_step n sig tv ev =
        (match np_histogram_density edges tv, np_histogram_density edges ev with
         | some u, some v => Except.ok (some (wasserstein_distance u v))
         | _, _ => Except.ok none) := by
  have hn0 : ((n : ℚ)) ≠ 0 := Nat.cast_ne_zero.mpr hn.ne'
  refine ⟨arangeVals mn ((mx - mn) / (n : ℚ)) (n + 1), rfl,
    arangeVals_length _ _ _, ?_, ?_, edgeDiffs_arangeVals _ n mn, ?_⟩
  · rw [arangeVals_cons]
    rfl
  · rw [arangeVals_getLastD]
    field_simp
  · rw [histogram_step, hmx]
    rw [hmn]
    simp only [np_arange_eval mn mx n hn hlt]
    rw [if_neg (by rw [arangeVals_length]; omega)]

def sig8 : List (Nat × ℚ) := [(0, 0), (1, 2)]

/-- Counterexample to C8 as stated: for the signal with values 0 and 2
and `num_bins = 2` the edges end at `max_v = 2`, and the value `5/2`,
although inside the claimed span `[min_v, max_v + bin_width) = [0, 3)`,
falls in no bin at all. -/
theorem C8_counterexample_bins_not_spanning :
    np_min (colValues sig8) = some 0 ∧
    np_max (colValues sig8) = some 2 ∧
    np_arange 0 (2 + (2 - 0) / ((2 : Nat) : ℚ)) ((2 - 0) / ((2 : Nat) : ℚ))
      = some [0, 1, 2] ∧
    ((5 : ℚ) / 2 < 2 + (2 - 0) / ((2 : Nat) : ℚ)) ∧
    (histCounts [(5 : ℚ) / 2] [0, 1, 2]).sum = 0 := by
  refine ⟨rfl, rfl, ?_, by norm_num, by norm_num [histCounts]⟩
  rw [np_arange_eval 0 2 2 (by norm_num) (by norm_num)]
  norm_num [arangeVals]

/-- Witness for the amended C8 at the concrete signal `sig8`. -/
theorem C8_shared_bin_edges_witness :
    ∃ edges : List ℚ,
      edges = arangeVals 0 ((2 - 0) / ((2 : Nat) : ℚ)) (2 + 1) ∧
      edges.length = 2 + 1 ∧
      edges.head? = some 0 ∧
      edges.getLastD 0 = 2 ∧
      edgeDiffs edges = List.replicate 2 ((2 - 0) / ((2 : Nat) : ℚ)) ∧
      histogram_step 2 sig8 [0] [2] =
        (match np_histogram_density edges [0], np_histogram_density edges [2] with
         | some u, some v => Except.ok (some (wasserstein_distance u v))
         | _, _ => Except.ok none) :=
  C8_shared_bin_edges 2 sig8 [0] [2] 0 2 rfl rfl (by norm_num) (by norm_num)

/-! ### Claim C1 -/

def sig1 : List (Nat × ℚ) := [(1, 0), (2, 4)]

def exA1 : Analysis :=
  { df_list := [("s1", sig1)], predicted_ranges := []
    evaluation_start := 1, evaluation_end := 2
    ts_normal_training := some [1], ts_label_evaluation := some [2] }

/-- C1 at the failing input: the signal `s1` has the density histograms
`[1/2, 0]` (normal) and `[0, 1/2]` (anomalous) over the shared edges
`[0, 2, 4]`.  The earth-mover distance the specification describes (bin
indices as support points, histogram values as weights) is 1, but the
code passes the two density arrays to scipy as *sample values*, and two
arrays that are permutations of each other have empirical distance 0:
the recorded score is 0.0, not 1. -/
theorem C1_code_score_differs_from_spec_emd :
    (∃ r, compute_histograms exA1 (some [1]) (some [2]) 2 = some r ∧
      r.rank = [("s1", some 0)]) ∧
    np_histogram_density [0, 2, 4] [0] = some [1/2, 0] ∧
    np_histogram_density [0, 2, 4] [4] = some [0, 1/2] ∧
    spec_bin_emd [1/2, 0] [0, 1/2] = 1 ∧
    (0 : ℚ) ≠ 1 := by
  refine ⟨⟨_, rfl, ?_⟩, ?_, ?_, ?_, by norm_num⟩
  · have hscore : signal_score 2 (some [2]) (some [1]) sig1 = some 0 := by
      simp only [signal_score, signal_score_raw,
        show locList sig1 [2] = some [4] from rfl,
        show locList sig1 [1] = some [0] from rfl, histogram_step,
        show np_max (colValues sig1) = some 4 from rfl,
        show np_min (colValues sig1) = some 0 from rfl]
      rw [np_arange_eval 0 4 2 (by norm_num) (by norm_num)]
      norm_num [arangeVals, np_histogram_density, histTotal, histCounts,
        edgeDiffs, wasserstein_distance, sortAsc, insertAsc, cdfAt, rabs,
        List.countP_cons, List.countP_nil]
    simp only [exA1, List.map_cons, List.map_nil, hscore]
    rfl
  · norm_num [np_histogram_density, histTotal, histCounts, edgeDiffs]
  · norm_num [np_histogram_density, histTotal, histCounts, edgeDiffs]
  · rw [spec_bin_emd, show ([(1 : ℚ)/2, 0].length - 1) = 1 from rfl,
      show List.range 1 = [0] from rfl]
    norm_num [rabs]

/-! ### Claim C2 -/

def sigA : List (Nat × ℚ) :=
  [(0, 1), (1, 1), (2, 1), (3, 1), (4, 1), (5, 1)]

def sigB : List (Nat × ℚ) := [(0, 1), (1, 1), (2, 1), (3, 5), (4, 5)]

def exA2 : Analysis :=
  { df_list := [("A", sigA), ("B", sigB)], predicted_ranges := []
    evaluation_start := 0, evaluation_end := 4
    ts_normal_training := some [0, 1, 2], ts_label_evaluation := some [3, 4] }

/-- C2 at the spec's scenario: signal A constant 1.0 (degenerate range,
caught to 0.0 — that part of the claim holds) and signal B worth 1.0 on
the normal partition and 5.0 on the anomalous one with `num_bins = 5`.
B's two density histograms are `[5/4,0,0,0,0]` and `[0,0,0,0,5/4]`, equal
as multisets, so scipy's sample-based distance gives B the score 0.0 as
well: B's score is NOT strictly greater than A's. -/
theorem C2_scenario_scores_both_zero :
    ∃ r, compute_histograms exA2 (some [0, 1, 2]) (some [3, 4]) 5 = some r ∧
      r.rank = [("A", some 0), ("B", some 0)] := by
  refine ⟨_, rfl, ?_⟩
  have hA : signal_score 5 (some [3, 4]) (some [0, 1, 2]) sigA = some 0 := by
    apply signal_score_degenerate
    simp [np_min, np_max, colValues, sigA, min_self, max_self]
  have hB : signal_score 5 (some [3, 4]) (some [0, 1, 2]) sigB = some 0 := by
    simp only [signal_score, signal_score_raw,
      show locList sigB [3, 4] = some [5, 5] from rfl,
      show locList sigB [0, 1, 2] = some [1, 1, 1] from rfl, histogram_step,
      show np_max (colValues sigB) = some 5 from rfl,
      show np_min (colValues sigB) = some 1 from rfl]
    rw [np_arange_eval 1 5 5 (by norm_num) (by norm_num)]
    norm_num [arangeVals, np_histogram_density, histTotal, histCounts,
      edgeDiffs, wasserstein_distance, sortAsc, insertAsc, cdfAt, rabs,
      List.countP_cons, List.countP_nil]
  simp only [exA2, List.map_cons, List.map_nil, hA, hB]
  norm_num [sorted_by_score_desc, tagIdx, insertRank, pyKeyLe, pyGt]

/-! ### Claim C7 -/

theorem pyKeyLe_total (a b : Nat × (String × Option ℚ)) :
    pyKeyLe a b = true ∨ pyKeyLe b a = true := by
  by_cases h1 : pyGt a.2.2 b.2.2 = true
  · left; simp [pyKeyLe, h1]
  · by_cases h2 : pyGt b.2.2 a.2.2 = true
    · right; simp [pyKeyLe, h2]
    · rcases Nat.le_total a.1 b.1 with h | h
      · left; simp [pyKeyLe, h1, h2, h]
      · right; simp [pyKeyLe, h1, h2, h]

theorem pyKeyLe_trans {a b c : Nat × (String × Option ℚ)}
    (ha : (a.2.2).isSome = true) (hb : (b.2.2).isSome = true)
    (hc : (c.2.2).isSome = true)
    (h1 : pyKeyLe a b = true) (h2 : pyKeyLe b c = true) :
    pyKeyLe a c = true := by
  obtain ⟨qa, hqa⟩ := Option.isSome_iff_exists.mp ha
  obtain ⟨qb, hqb⟩ := Option.isSome_iff_exists.mp hb
  obtain ⟨qc, hqc⟩ := Option.isSome_iff_exists.mp hc
  simp only [pyKeyLe, pyGt, hqa, hqb, hqc, Bool.or_eq_true,
    Bool.and_eq_true, Bool.not_eq_true', decide_eq_true_eq,
    decide_eq_false_iff_not, not_lt] at h1 h2 ⊢
  rcases h1 with h1 | ⟨h1a, h1b⟩
  · rcases h2 with h2 | ⟨h2a, h2b⟩
    · exact Or.inl (lt_trans h2 h1)
    · exact Or.inl (lt_of_le_of_lt h2a h1)
  · rcases h2 with h2 | ⟨h2a, h2b⟩
    · exact Or.inl (lt_of_lt_of_le h2 h1a)
    · exact Or.inr ⟨le_trans h2a h1a, le_trans h1b h2b⟩

theorem insertRank_pairwise {x : Nat × (String × Option ℚ)}
    {l : List (Nat × (String × Option ℚ))}
    (hx : (x.2.2).isSome = true) (hl : ∀ p ∈ l, (p.2.2).isSome = true)
    (h : l.Pairwise (fun a b => pyKeyLe a b = true)) :
    (insertRank x l).Pairwise (fun a b => pyKeyLe a b = true) := by
  induction l with
  | nil => simp [insertRank]
  | cons y ys ih =>
    rcases List.pairwise_cons.mp h with ⟨hy, hys⟩
    by_cases hc : pyKeyLe x y = true
    · rw [insertRank, if_pos hc]
      refine List.pairwise_cons.mpr ⟨?_, h⟩
      intro z hz
      rcases List.mem_cons.mp hz with rfl | hz
      · exact hc
      · exact pyKeyLe_trans hx (hl y (List.mem_cons_self y ys))
          (hl z (List.mem_cons_of_mem y hz)) hc (hy z hz)
    · rw [insertRank, if_neg hc]
      refine List.pairwise_cons.mpr
        ⟨?_, ih (fun p hp => hl p (List.mem_cons_of_mem y hp)) hys⟩
      intro z hz
      rcases List.mem_cons.mp ((insertRank_perm x ys).mem_iff.mp hz) with heq | hz
      · subst heq
        rcases pyKeyLe_total z y with ht | ht
        · exact absurd ht hc
        · exact ht
      · exact hy z hz

theorem foldr_insertRank_pairwise {l : List (Nat × (String × Option ℚ))}
    (hl : ∀ p ∈ l, (p.2.2).isSome = true) :
    (l.foldr insertRank []).Pairwise (fun a b => pyKeyLe a b = true) := by
  induction l with
  | nil => simp
  | cons x xs ih =>
    exact insertRank_pairwise (hl x (List.mem_cons_self x xs))
      (fun p hp => hl p (List.mem_cons_of_mem x
        ((foldr_insertRank_perm xs).mem_iff.mp hp)))
      (ih fun p hp => hl p (List.mem_cons_of_mem x hp))

theorem tagIdx_map_fst (l : List α) :
    ∀ j, (tagIdx j l).map Prod.fst = List.range' j l.length := by
  induction l with
  | nil => intro j; rfl
  | cons x xs ih =>
    intro j
    simp only [tagIdx, List.map_cons, ih (j + 1), List.length_cons,
      List.range'_succ]

theorem mem_tagIdx {l : List α} :
    ∀ {j : Nat} {p : Nat × α}, p ∈ tagIdx j l →
      j ≤ p.1 ∧ p.1 - j < l.length ∧ l[p.1 - j]? = some p.2 := by
  induction l with
  | nil => intro j p hp; cases hp
  | cons x xs ih =>
    intro j p hp
    rcases List.mem_cons.mp hp with rfl | hp
    · exact ⟨Nat.le_refl j, by simp, by simp⟩
    · obtain ⟨h1, h2, h3⟩ := ih hp
      refine ⟨Nat.le_trans (Nat.le_succ j) h1, ?_, ?_⟩
      · simp only [List.length_cons]
        omega
      · rw [show p.1 - j = (p.1 - (j + 1)) + 1 by omega]
        simpa using h3

/-- For nodup signal ids, the position tag of an entry is exactly the
index of its id in the original id list. -/
theorem tagIdx_indexOf {l : List (String × Option ℚ)}
    (hnodup : (l.map Prod.fst).Nodup) {p : Nat × (String × Option ℚ)}
    (hp : p ∈ tagIdx 0 l) :
    (l.map Prod.fst).indexOf p.2.1 = p.1 ∧ p.2 ∈ l := by
  obtain ⟨-, h2, h3⟩ := mem_tagIdx hp
  rw [Nat.sub_zero] at h2 h3
  obtain ⟨hlt, hget⟩ := List.getElem?_eq_some.mp h3
  constructor
  · have hmlt : p.1 < (l.map Prod.fst).length := by simpa using h2
    have hval : (l.map Prod.fst)[p.1] = p.2.1 := by
      rw [List.getElem_map, hget]
    rw [← hval]
    exact List.indexOf_getElem hnodup p.1 hmlt
  · rw [← hget]
    exact List.getElem_mem hlt

/-- C7: the ranking holds exactly one entry per input signal (it is a
permutation of the per-signal entry list), it is sorted by descending
score, and ties keep the input order of the signals (stable sort).
Stated for real (non-NaN) scores, where "descending" is meaningful. -/
theorem C7_ranking_sorted_stable (a : Analysis) (n : Nat) (i1 i2 : List Nat)
    (hnodup : (a.df_list.map Prod.fst).Nodup)
    (hsome : ∀ p ∈ a.df_list,
      (signal_score n a.ts_label_evaluation a.ts_normal_training p.2).isSome
        = true) :
    ∃ r, compute_histograms a (some i1) (some i2) n = some r ∧
      List.Perm r.rank (a.df_list.map fun p =>
        (p.1, signal_score n a.ts_label_evaluation a.ts_normal_training p.2)) ∧
      r.rank.Pairwise (fun x y => ∀ qx qy : ℚ,
        x.2 = some qx → y.2 = some qy → qy ≤ qx) ∧
      r.rank.Pairwise (fun x y => x.2 = y.2 →
        (a.df_list.map Prod.fst).indexOf x.1 <
          (a.df_list.map Prod.fst).indexOf y.1) := by
  refine ⟨_, rfl, sorted_by_score_desc_perm _, ?_, ?_⟩
  all_goals
    set entries := a.df_list.map fun p =>
      (p.1, signal_score n a.ts_label_evaluation a.ts_normal_training p.2)
      with hentries
    have hfst : entries.map Prod.fst = a.df_list.map Prod.fst := by
      rw [hentries, List.map_map]; rfl
    have hnodup' : (entries.map Prod.fst).Nodup := by rw [hfst]; exact hnodup
    have hsome' : ∀ p ∈ entries, (p.2).isSome = true := by
      intro p hp
      obtain ⟨q, hq, rfl⟩ := List.mem_map.mp hp
      exact hsome q hq
    have hmemL : ∀ p ∈ (tagIdx 0 entries).foldr insertRank [],
        p ∈ tagIdx 0 entries :=
      fun p hp => (foldr_insertRank_perm (tagIdx 0 entries)).mem_iff.mp hp
    have hPW : ((tagIdx 0 entries).foldr insertRank []).Pairwise
        (fun x y => pyKeyLe x y = true) :=
      foldr_insertRank_pairwise fun p hp =>
        hsome' p.2 (tagIdx_indexOf hnodup' hp).2
    have hneL : ((tagIdx 0 entries).foldr insertRank []).Pairwise
        (fun x y => x.1 ≠ y.1) := by
      have hnd : ((tagIdx 0 entries).map Prod.fst).Nodup := by
        rw [tagIdx_map_fst entries 0]
        exact List.nodup_range' 0 entries.length
      have hndL : (((tagIdx 0 entries).foldr insertRank []).map Prod.fst).Nodup :=
        (((foldr_insertRank_perm (tagIdx 0 entries)).map Prod.fst).nodup_iff).mpr hnd
      exact List.pairwise_map.mp hndL
  · -- descending scores
    refine List.pairwise_map.mpr (hPW.imp ?_)
    intro x y hxy qx qy hqx hqy
    simp only [pyKeyLe, pyGt, hqx, hqy, Bool.or_eq_true, Bool.and_eq_true,
      Bool.not_eq_true', decide_eq_true_eq, decide_eq_false_iff_not,
      not_lt] at hxy
    rcases hxy with h | ⟨h, -⟩
    · exact le_of_lt h
    · exact h
  · -- stable ties
    refine List.pairwise_map.mpr ((hPW.and hneL).imp_of_mem ?_)
    intro x y hx hy hxy
    obtain ⟨hle, hne⟩ := hxy
    intro heq
    obtain ⟨hidx_x, hmem_x⟩ := tagIdx_indexOf hnodup' (hmemL x hx)
    obtain ⟨hidx_y, hmem_y⟩ := tagIdx_indexOf hnodup' (hmemL y hy)
    obtain ⟨qx, hqx⟩ := Option.isSome_iff_exists.mp (hsome' x.2 hmem_x)
    obtain ⟨qy, hqy⟩ := Option.isSome_iff_exists.mp (hsome' y.2 hmem_y)
    rw [← hfst, hidx_x, hidx_y]
    have hq : qx = qy := by
      rw [hqx, hqy] at heq
      exact Option.some.inj heq
    simp only [pyKeyLe, pyGt, hqx, hqy, hq, Bool.or_eq_true,
      Bool.and_eq_true, Bool.not_eq_true', decide_eq_true_eq,
      decide_eq_false_iff_not, not_lt, lt_irrefl, false_or] at hle
    exact Nat.lt_of_le_of_ne hle.2 hne

def exA7 : Analysis :=
  { df_list := [("P", [(0, 2), (1, 2)]), ("Q", [(0, 3), (1, 3)])]
    predicted_ranges := []
    evaluation_start := 0, evaluation_end := 1
    ts_normal_training := some [0], ts_label_evaluation := some [1] }

/-- Witness for C7: two signals with distinct ids and real scores. -/
theorem C7_ranking_sorted_stable_witness :
    ∃ r, compute_histograms exA7 (some [0]) (some [1]) 3 = some r ∧
      List.Perm r.rank (exA7.df_list.map fun p =>
        (p.1, signal_score 3 exA7.ts_label_evaluation
          exA7.ts_normal_training p.2)) ∧
      r.rank.Pairwise (fun x y => ∀ qx qy : ℚ,
        x.2 = some qx → y.2 = some qy → qy ≤ qx) ∧
      r.rank.Pairwise (fun x y => x.2 = y.2 →
        (exA7.df_list.map Prod.fst).indexOf x.1 <
          (exA7.df_list.map Prod.fst).indexOf y.1) :=
  C7_ranking_sorted_stable exA7 3 [0] [1] (by decide)
    (by
      intro p hp
      simp only [exA7] at hp
      rcases List.mem_cons.mp hp with rfl | hp
      · rw [signal_score_degenerate 3 _ _ _
          (by simp [np_min, np_max, colValues, min_self, max_self])]
        rfl
      · rcases List.mem_cons.mp hp with rfl | hp
        · rw [signal_score_degenerate 3 _ _ _
            (by simp [np_min, np_max, colValues, min_self, max_self])]
          rfl
        · cases hp)

end Lookout
